import Mathlib

/-!
Verification of the envelope-extraction and frame-synthesis pipeline of the
goa2w audio-waveform video generator (src/main.go).

The Go code is shallowly embedded: float64/float32 arithmetic is modelled by
exact rationals (ℚ) where only field operations occur, and by real numbers (ℝ)
where transcendental functions (exp, cos, log10, sqrt) appear.  Go's `int(x)`
conversion of a float truncates toward zero; it is modelled by `goIntQ` / `goIntR`.
Where the Go float semantics produce a non-finite value (0/0 → NaN), a separate
NaN-aware model using `Option` is used (`fdivF`, `taperGo`, `normalizeGo`).
-/

/-- Go `int(x)` conversion for a rational: truncation toward zero. -/
def goIntQ (q : ℚ) : ℤ :=
  if q < 0 then -⌊-q⌋ else ⌊q⌋

/-- Go `int(x)` conversion for a real: truncation toward zero. -/
noncomputable def goIntR (x : ℝ) : ℤ :=
  if x < 0 then -⌊-x⌋ else ⌊x⌋

/-- Integers `lo, lo+1, …, hi-1`, the index sequence of a Go loop
`for y := lo; y < hi; y++`. -/
def intRange (lo hi : ℤ) : List ℤ :=
  (List.range (hi - lo).toNat).map (fun k : ℕ => lo + (k : ℤ))

/-- Offsets visited by the Go loop `for off := 0; off < bound; off += stride`
(src/main.go:212).  The `0 < stride` conjunct only expresses that the Go loop
terminates for positive stride. -/
def offsets (bound stride off : ℕ) : List ℕ :=
  if _h : 0 < stride ∧ off < bound then off :: offsets bound stride (off + stride) else []
termination_by bound - off
decreasing_by
  simp_wf
  omega

/-- The zero-padded signal built at src/main.go:208-209:
`padded := make([]float32, len(wav)+window); copy(padded[window/2:], wav)`. -/
noncomputable def paddedSig (wav : List ℝ) (window : ℕ) : List ℝ :=
  List.replicate (window / 2) 0 ++ wav ++ List.replicate (window - window / 2) 0

/-- The positive samples of one analysis frame (the rectification at
src/main.go:216-221 accumulates only samples with `v > 0`). -/
noncomputable def posSamples (frame : List ℝ) : List ℝ :=
  frame.filter (fun v => decide (0 < v))

/-- Rectified average of one analysis frame (src/main.go:214-226): the mean of
the positive samples, or 0 when there are none. -/
noncomputable def frameAvg (frame : List ℝ) : ℝ :=
  if 0 < (posSamples frame).length then (posSamples frame).sum / ((posSamples frame).length : ℝ)
  else 0

/-- `sigmoid` from src/main.go:203-205. -/
noncomputable def sigmoid (x : ℝ) : ℝ :=
  1 / (1 + Real.exp (-x))

/-- The compression applied to each envelope value at src/main.go:230:
`out[i] = 1.9 * (sigmoid(2.5*out[i]) - 0.5)`. -/
noncomputable def compressVal (v : ℝ) : ℝ :=
  1.9 * (sigmoid (2.5 * v) - 0.5)

/-- `envelope` from src/main.go:207-233. -/
noncomputable def envelope (wav : List ℝ) (window stride : ℕ) : List ℝ :=
  ((offsets ((paddedSig wav window).length - window) stride 0).map
    (fun off => frameAvg (((paddedSig wav window).drop off).take window))).map compressVal

/-- The envelope padding built at src/main.go:366-367:
`padded := make([]float64, len(env)+3*bars); copy(padded[bars/2:], env)`. -/
noncomputable def paddedEnv (env : List ℝ) (bars : ℕ) : List ℝ :=
  List.replicate (bars / 2) 0 ++ env ++ List.replicate (3 * bars - bars / 2) 0

/-- The frame count computed at src/main.go:362-363:
`audioDuration := float64(len(mono)) / sr; frames := int(float64(rate) * audioDuration)`. -/
def framesCount (rate n : ℕ) (sr : ℚ) : ℤ :=
  goIntQ ((rate : ℚ) * ((n : ℚ) / sr))

/-- The fractional envelope position of a frame, src/main.go:381:
`pos := (float64(idx) / float64(rate) * sr) / float64(stride) / float64(bars)`. -/
def framePos (idx rate : ℕ) (sr : ℚ) (stride bars : ℕ) : ℚ :=
  ((idx : ℚ) / (rate : ℚ) * sr) / (stride : ℚ) / (bars : ℚ)

/-- The integer segment offset of a frame, src/main.go:382: `off := int(pos)`. -/
def frameOff (idx rate : ℕ) (sr : ℚ) (stride bars : ℕ) : ℤ :=
  goIntQ (framePos idx rate sr stride bars)

/-- Float division modelled with IEEE awareness only of the zero divisor: a
zero divisor yields a non-finite value (NaN for 0/0, ±Inf otherwise),
represented by `none`; any further arithmetic on it stays non-finite. -/
noncomputable def fdivF (a b : ℝ) : Option ℝ :=
  if b = 0 then none else some (a / b)

/-- The normalization at src/main.go:348-356: every mono sample is divided by
`std = sqrt(Σ v² / len)`, with no special case for a zero `std`. -/
noncomputable def normalizeGo (mono : List ℝ) : List (Option ℝ) :=
  mono.map (fun v => fdivF v (Real.sqrt ((mono.map (fun w => w * w)).sum / (mono.length : ℝ))))

/-- The raised-cosine taper factor of src/main.go:401,
`0.5 * (1 - math.Cos(2*math.Pi*float64(i)/float64(len(denv)-1)))`, in the
NaN-aware float model: the division by `len(denv)-1 = bars-1` uses `fdivF`,
and `cos(NaN) = NaN` is expressed by mapping over the option. -/
noncomputable def taperGo (i bars : ℕ) : Option ℝ :=
  (fdivF (2 * Real.pi * (i : ℝ)) (((bars : ℤ) - 1 : ℤ) : ℝ)).map (fun t => 0.5 * (1 - Real.cos t))

/-- `interpole` from src/main.go:285-287. -/
noncomputable def interpole (x1 y1 x2 y2 x : ℝ) : ℝ :=
  y1 + (y2 - y1) * (x - x1) / (x2 - x1)

/-- The bar vector `denv` computed for one frame at src/main.go:381-402, in the
total real model (divisions are Lean's total field division; the Go NaN edge
case of `bars = 1` is treated separately by `taperGo`). -/
noncomputable def barVector (env : List ℝ) (idx rate : ℕ) (sr : ℝ) (stride bars : ℕ)
    (speed : ℝ) : List ℝ :=
  let pos : ℝ := ((idx : ℝ) / (rate : ℝ) * sr) / (stride : ℝ) / (bars : ℝ)
  let off : ℤ := goIntR pos
  let loc : ℝ := pos - (off : ℝ)
  let env1 := (env.drop (off.toNat * bars)).take bars
  let env2 := (env.drop ((off.toNat + 1) * bars)).take bars
  let maxvol : ℝ := env2.foldl (fun m v => if m < v then v else m) 0
  let maxvolDb : ℝ := Real.logb 10 (1e-4 + maxvol) * 10
  let speedup : ℝ := max 0.5 (min 2 (interpole (-6) 0.5 0 2 maxvolDb))
  let w : ℝ := sigmoid (speed * speedup * (loc - 0.5))
  (List.range bars).map (fun i =>
    ((1 - w) * env1.getD i 0 + w * env2.getD i 0) *
      (0.5 * (1 - Real.cos (2 * Real.pi * (i : ℝ) / ((bars : ℝ) - 1)))))

/-- An RGBA color, as in Go's `color.RGBA` (8-bit components modelled by ℕ). -/
structure RGBA where
  r : ℕ
  g : ℕ
  b : ℕ
  a : ℕ
deriving DecidableEq

/-- A raster image: the bounds of `image.NewRGBA(image.Rect(0,0,w,h))` plus the
pixel contents. -/
structure Image where
  width : ℕ
  height : ℕ
  pix : ℤ → ℤ → RGBA

/-- Go's `img.Set(x, y, c)` (src/main.go:241,259,272): a no-op when `(x,y)` is
outside the image bounds, otherwise it replaces exactly that pixel. -/
def setPix (img : Image) (x y : ℤ) (c : RGBA) : Image :=
  if 0 ≤ x ∧ x < (img.width : ℤ) ∧ 0 ≤ y ∧ y < (img.height : ℤ) then
    { img with pix := fun u v => if u = x ∧ v = y then c else img.pix u v }
  else img

/-- One horizontal run of `img.Set` calls, the inner `for dx` loops of
src/main.go:258-260 and 271-273 (and the inner `for x` loop of the background
fill at src/main.go:240-242). -/
def fillRow (img : Image) (cols : List ℤ) (y : ℤ) (c : RGBA) : Image :=
  cols.foldl (fun im x => setPix im x y c) img

/-- A nested row/column fill, the `for y { for x }` loop pattern of
src/main.go:239-243, 257-261 and 270-274. -/
def fillRect (img : Image) (cols rows : List ℤ) (c : RGBA) : Image :=
  rows.foldl (fun im y => fillRow im cols y c) img

/-- `image.NewRGBA` (src/main.go:236): a `width × height` image whose pixels
start as the zero color. -/
def newRGBA (w h : ℕ) : Image :=
  ⟨w, h, fun _ _ => ⟨0, 0, 0, 0⟩⟩

/-- The background fill of src/main.go:238-243. -/
def fillBg (w h : ℕ) (bg : RGBA) : Image :=
  fillRect (newRGBA w h) (intRange 0 (w : ℤ)) (intRange 0 (h : ℤ))  bg

/-- `barWidth := float64(width) / float64(len(env))` (src/main.go:245). -/
def barWidthQ (n w : ℕ) : ℚ :=
  (w : ℚ) / (n : ℚ)

/-- `actualWidth := barWidth / (1 + 2*padRatio)` with `padRatio = 0.1`
(src/main.go:246-247). -/
def actualWidthQ (n w : ℕ) : ℚ :=
  barWidthQ n w / (1 + 2 * (1 / 10))

/-- `pad := padRatio * actualWidth` (src/main.go:248). -/
def padQ (n w : ℕ) : ℚ :=
  (1 / 10) * actualWidthQ n w

/-- The columns a bar occupies: `x := int(pad + float64(i)*barWidth)` and
`dx ∈ [0, int(actualWidth))` (src/main.go:252-253,258,271). -/
def barCols (n w : ℕ) (i : ℕ) : List ℤ :=
  intRange (goIntQ (padQ n w + (i : ℚ) * barWidthQ n w))
    (goIntQ (padQ n w + (i : ℚ) * barWidthQ n w) + goIntQ (actualWidthQ n w))

/-- The rows of the upper half of a bar:
`for y := mid - int(half*float64(height)/2); y < mid; y++` with
`half = 0.5*e`, `mid = height/2` (src/main.go:251,254,257). -/
def upperRows (h : ℕ) (e : ℚ) : List ℤ :=
  intRange (((h / 2 : ℕ) : ℤ) - goIntQ ((1 / 2 : ℚ) * e * (h : ℚ) / 2)) ((h / 2 : ℕ) : ℤ)

/-- The rows of the lower half of a bar:
`for y := mid; y < mid + int(0.9*half*float64(height)/2); y++`
(src/main.go:270). -/
def lowerRows (h : ℕ) (e : ℚ) : List ℤ :=
  intRange ((h / 2 : ℕ) : ℤ)
    (((h / 2 : ℕ) : ℤ) + goIntQ ((9 / 10 : ℚ) * ((1 / 2 : ℚ) * e) * (h : ℚ) / 2))

/-- The reduced-alpha foreground used for the lower half
(src/main.go:264-269). -/
def lowerFgOf (fg : RGBA) : RGBA :=
  { fg with a := 204 }

/-- Drawing one bar (one iteration of the `for i, e := range env` loop,
src/main.go:250-275): the opaque upper rectangle, then the translucent lower
rectangle. -/
def drawBar (n w h : ℕ) (fg : RGBA) (img : Image) (i : ℕ) (e : ℚ) : Image :=
  fillRect (fillRect img (barCols n w i) (upperRows h e) fg)
    (barCols n w i) (lowerRows h e) (lowerFgOf fg)

/-- `drawEnv` from src/main.go:235-283 (omitting the PNG encoding): background
fill followed by the bar loop. -/
def drawEnv (env : List ℚ) (fg bg : RGBA) (w h : ℕ) : Image :=
  env.enum.foldl (fun im p => drawBar env.length w h fg im p.1 p.2) (fillBg w h bg)

/-- A pixel is covered by some drawn bar rectangle of `drawEnv`. -/
def covered (env : List ℚ) (w h : ℕ) (x y : ℤ) : Prop :=
  ∃ p ∈ env.enum, x ∈ barCols env.length w p.1 ∧ (y ∈ upperRows h p.2 ∨ y ∈ lowerRows h p.2)

instance coveredDec (env : List ℚ) (w h : ℕ) (x y : ℤ) : Decidable (covered env w h x y) := by
  unfold covered
  exact List.decidableBEx _ _

/-- Four little-endian bytes starting at `offset` decoded as a 32-bit word, the
bit pattern read by `binary.LittleEndian.Uint32(rawAudio[offset:offset+4])`
(src/main.go:195); `none` when any byte is out of range. -/
def u32le (raw : List ℕ) (offset : ℕ) : Option ℕ :=
  match raw.get? offset, raw.get? (offset + 1), raw.get? (offset + 2), raw.get? (offset + 3) with
  | some b0, some b1, some b2, some b3 => some (b0 + 256 * b1 + 65536 * b2 + 16777216 * b3)
  | _, _, _, _ => none

/-- The sample decoding of `readAudio` (src/main.go:186-198):
`samples := len(rawAudio) / 4 / channels`, then for each channel `c` the
samples `i < samples` are read at byte offset `4*(i*channels+c)`.  The float32
bit interpretation is left as the raw 32-bit word, which is a bijection and
irrelevant to the counting claim. -/
def readAudioSamples (raw : List ℕ) (channels : ℕ) : List (List (Option ℕ)) :=
  (List.range channels).map (fun c =>
    (List.range (raw.length / 4 / channels)).map (fun i => u32le raw (4 * (i * channels + c))))

-- ------------------------------------------------------------------
-- Theorems
-- ------------------------------------------------------------------

/-- Helper: the length of the offset list of the envelope loop is the number of
multiples of `stride` below `bound`, counted from `off`. -/
theorem offsets_length (stride : ℕ) (hs : 0 < stride) (bound off : ℕ) :
    (offsets bound stride off).length = (bound - off + stride - 1) / stride := by
  by_cases h : off < bound
  · rw [offsets, dif_pos ⟨hs, h⟩, List.length_cons,
      offsets_length stride hs bound (off + stride)]
    rcases Nat.lt_or_ge (bound - off) stride with hlt | hge
    · have h1 : bound - (off + stride) = 0 := by omega
      rw [h1]
      have h2 : (0 + stride - 1) / stride = 0 := Nat.div_eq_of_lt (by omega)
      rw [h2]
      have h3 : bound - off + stride - 1 = (bound - off - 1) + 1 * stride := by omega
      rw [h3, Nat.add_mul_div_right _ _ hs]
      have h4 : (bound - off - 1) / stride = 0 := Nat.div_eq_of_lt (by omega)
      omega
    · have h1 : bound - (off + stride) + stride - 1 = (bound - off - 1) := by omega
      have h2 : bound - off + stride - 1 = (bound - off - 1) + 1 * stride := by omega
      rw [h1, h2, Nat.add_mul_div_right _ _ hs]
  · rw [offsets, dif_neg (by omega)]
    have h1 : bound - off + stride - 1 = stride - 1 := by omega
    rw [h1, Nat.div_eq_of_lt (by omega)]
    rfl
termination_by bound - off
decreasing_by
  simp_wf
  omega

/-- Helper: the padded signal has `window` extra samples. -/
theorem paddedSig_length (wav : List ℝ) (window : ℕ) :
    (paddedSig wav window).length = wav.length + window := by
  simp [paddedSig]
  omega

/-- Helper: the envelope length is `⌈len(wav)/stride⌉`, i.e.
`(len(wav)+stride-1)/stride` in integer arithmetic. -/
theorem envelope_length_aux (wav : List ℝ) (window stride : ℕ) (hs : 0 < stride) :
    (envelope wav window stride).length = (wav.length + stride - 1) / stride := by
  unfold envelope
  rw [List.length_map, List.length_map, offsets_length stride hs, paddedSig_length]
  congr 1
  omega

/-- C2 counterexample: the claimed envelope length formula
`floor((len(padded) - window) / stride) = floor(len(signal)/stride)` fails for a
4-sample signal with `window = stride = 3`: the loop at src/main.go:212 runs for
`off = 0` and `off = 3`, producing 2 values, while the formula gives 1. -/
theorem envelope_length_claim_refuted :
    ¬ ((envelope [(0 : ℝ), 0, 0, 0] 3 3).length =
      ((paddedSig [(0 : ℝ), 0, 0, 0] 3).length - 3) / 3) := by
  rw [envelope_length_aux _ _ _ (by omega), paddedSig_length]
  simp

/-- C2 (amended): for `window, stride > 0` with `stride ≤ window`, the envelope
length equals `⌈len(signal)/stride⌉ = (len(signal) + stride - 1) / stride`; the
claimed floor value is obtained only when `stride` divides `len(signal)`. -/
theorem envelope_length_eq (wav : List ℝ) (window stride : ℕ)
    (hw : 0 < window) (hs : 0 < stride) (hsw : stride ≤ window) :
    (envelope wav window stride).length = (wav.length + stride - 1) / stride :=
  envelope_length_aux wav window stride hs

/-- C2 witness: the amended length formula evaluated on a concrete signal. -/
theorem envelope_length_eq_wit :
    0 < 3 ∧ 3 ≤ 3 ∧
      (envelope [(0 : ℝ), 0, 0, 0] 3 3).length = ([(0 : ℝ), 0, 0, 0].length + 3 - 1) / 3 :=
  ⟨by decide, by decide, envelope_length_eq [(0 : ℝ), 0, 0, 0] 3 3 (by decide) (by decide) (by decide)⟩

/-- Helper: Go truncation agrees with the floor on nonnegative values. -/
theorem goIntQ_eq_floor (q : ℚ) (h : 0 ≤ q) : goIntQ q = ⌊q⌋ := by
  rw [goIntQ, if_neg (not_lt.mpr h)]

/-- C3 counterexample: for a 3-sample mono signal at sample rate 2 and frame
rate 1 the code computes `int(1 * 3/2) = 1` frames (src/main.go:363 truncates),
while `round(1 * 3/2) = 2`. -/
theorem framesCount_not_round :
    ¬ ((framesCount 1 3 2 : ℤ) = round ((1 : ℚ) * ((3 : ℚ) / 2))) := by
  have h1 : framesCount 1 3 2 = 1 := by
    rw [framesCount, goIntQ]
    norm_num
  have h2 : round ((1 : ℚ) * ((3 : ℚ) / 2)) = 2 := by
    rw [round_eq]
    norm_num
  rw [h1, h2]
  decide

/-- C3 (amended): the number of generated frames is the *truncation* (floor,
since the value is nonnegative) of `rate × audio_duration_seconds`, i.e. the
greatest integer not exceeding `rate · len(mono)/sr`, not the nearest one. -/
theorem framesCount_is_floor (rate n : ℕ) (sr : ℚ) (hsr : 0 < sr) :
    ((framesCount rate n sr : ℤ) : ℚ) ≤ (rate : ℚ) * ((n : ℚ) / sr) ∧
      (rate : ℚ) * ((n : ℚ) / sr) < ((framesCount rate n sr : ℤ) : ℚ) + 1 := by
  have hx : (0 : ℚ) ≤ (rate : ℚ) * ((n : ℚ) / sr) := by positivity
  rw [framesCount, goIntQ_eq_floor _ hx]
  exact ⟨Int.floor_le _, Int.lt_floor_add_one _⟩

/-- C3 witness: the floor characterization of the frame count at a concrete
input. -/
theorem framesCount_is_floor_wit :
    (0 : ℚ) < 2 ∧
      (((framesCount 1 3 2 : ℤ) : ℚ) ≤ (1 : ℚ) * ((3 : ℚ) / 2) ∧
        (1 : ℚ) * ((3 : ℚ) / 2) < ((framesCount 1 3 2 : ℤ) : ℚ) + 1) :=
  ⟨by norm_num, framesCount_is_floor 1 3 2 (by norm_num)⟩

/-- Helper: reading any index of a zero replicate with default 0 gives 0. -/
theorem replicate_zero_getD (r j : ℕ) : (List.replicate r (0 : ℝ)).getD j 0 = 0 := by
  rw [List.getD_eq_getElem?_getD]
  simp

/-- C4 counterexample: with `bars = 2` and a one-entry envelope `[1]`, the Go
copy `copy(padded[bars/2:], env)` (src/main.go:367) places the envelope at
offset `bars/2 = 1`, so the padded envelope's entry 0 is 0, not `env[0] = 1`:
the pad is not purely appended after the envelope. -/
theorem paddedEnv_not_pure_tail :
    ¬ ((paddedEnv [(1 : ℝ)] 2).getD 0 0 = [(1 : ℝ)].getD 0 0) := by
  intro h
  simp [paddedEnv, List.replicate] at h

/-- C4 (amended): the padded envelope has length `len(env) + 3·bars`, with
`bars/2` zero entries prepended before the envelope (the copy starts at offset
`bars/2`), the envelope occupying indices `[bars/2, bars/2 + len(env))`, and the
remaining `3·bars - bars/2` zero entries following it. -/
theorem paddedEnv_layout (env : List ℝ) (bars i : ℕ) :
    (paddedEnv env bars).length = env.length + 3 * bars ∧
      (paddedEnv env bars).getD i 0 =
        if bars / 2 ≤ i ∧ i < bars / 2 + env.length then env.getD (i - bars / 2) 0 else 0 := by
  constructor
  · simp [paddedEnv]
    omega
  · have hrep : ∀ r j : ℕ, (List.replicate r (0 : ℝ)).getD j 0 = 0 := replicate_zero_getD
    unfold paddedEnv
    by_cases h1 : i < bars / 2
    · rw [List.getD_append _ _ _ _ (by simp; omega), List.getD_append _ _ _ _ (by simp; omega),
        hrep, if_neg (by omega)]
    · by_cases h2 : i < bars / 2 + env.length
      · rw [List.getD_append _ _ _ _ (by simp; omega),
          List.getD_append_right _ _ _ _ (by simp; omega), if_pos (by omega)]
        congr 1
        simp
      · rw [List.getD_append_right _ _ _ _ (by simp; omega), hrep, if_neg (by omega)]

/-- Helper: the padded envelope adds exactly `3*bars` entries. -/
theorem paddedEnv_length (env : List ℝ) (bars : ℕ) :
    (paddedEnv env bars).length = env.length + 3 * bars := by
  simp [paddedEnv]
  omega

/-- C1 (confirmed): for every frame index `idx < frames` (with `frames` derived
from the video rate and the audio duration as at src/main.go:362-363), the
offset `off = int(pos)` of src/main.go:381-382 satisfies `0 ≤ off` and
`(off+2)·bars ≤ len(padded envelope)`, so both slices
`env[off*bars:(off+1)*bars]` and `env[(off+1)*bars:(off+2)*bars]`
(src/main.go:385-386) stay inside the padded envelope. -/
theorem frames_index_within_padded_env (wav : List ℝ) (window stride bars rate idx : ℕ)
    (sr : ℚ) (hs : 0 < stride) (hb : 0 < bars) (hr : 0 < rate) (hsr : 0 < sr)
    (hidx : (idx : ℤ) < framesCount rate wav.length sr) :
    0 ≤ frameOff idx rate sr stride bars ∧
      ((frameOff idx rate sr stride bars).toNat + 2) * bars ≤
        (paddedEnv (envelope wav window stride) bars).length := by
  set N := wav.length with hNdef
  have hposnn : 0 ≤ framePos idx rate sr stride bars := by
    unfold framePos
    exact div_nonneg (div_nonneg (mul_nonneg (div_nonneg (Nat.cast_nonneg _)
      (Nat.cast_nonneg _)) hsr.le) (Nat.cast_nonneg _)) (Nat.cast_nonneg _)
  have hoff : frameOff idx rate sr stride bars = ⌊framePos idx rate sr stride bars⌋ := by
    rw [frameOff, goIntQ_eq_floor _ hposnn]
  have hoffnn : 0 ≤ frameOff idx rate sr stride bars := by
    rw [hoff]
    exact Int.floor_nonneg.mpr hposnn
  refine ⟨hoffnn, ?_⟩
  have hfc : framesCount rate N sr = ⌊(rate : ℚ) * ((N : ℚ) / sr)⌋ :=
    goIntQ_eq_floor _ (mul_nonneg (Nat.cast_nonneg _) (div_nonneg (Nat.cast_nonneg _) hsr.le))
  have hidx2 : (idx : ℚ) < (rate : ℚ) * ((N : ℚ) / sr) := by
    have h1 : (idx : ℤ) + 1 ≤ ⌊(rate : ℚ) * ((N : ℚ) / sr)⌋ := by
      rw [← hfc]
      omega
    have h2 : (((idx : ℤ) + 1 : ℤ) : ℚ) ≤ (rate : ℚ) * ((N : ℚ) / sr) := Int.le_floor.mp h1
    push_cast at h2
    linarith
  have hrpos : (0 : ℚ) < (rate : ℚ) := by exact_mod_cast hr
  have key : (idx : ℚ) / (rate : ℚ) * sr < (N : ℚ) := by
    have k1 : (idx : ℚ) / (rate : ℚ) < ((rate : ℚ) * ((N : ℚ) / sr)) / (rate : ℚ) :=
      (div_lt_div_iff_of_pos_right hrpos).mpr hidx2
    rw [mul_div_cancel_left₀ _ (ne_of_gt hrpos)] at k1
    have k2 : (idx : ℚ) / (rate : ℚ) * sr < ((N : ℚ) / sr) * sr :=
      mul_lt_mul_of_pos_right k1 hsr
    rwa [div_mul_cancel₀ _ (ne_of_gt hsr)] at k2
  have hsbpos : (0 : ℚ) < (stride : ℚ) * (bars : ℚ) := by
    have h1 : (0 : ℚ) < (stride : ℚ) := by exact_mod_cast hs
    have h2 : (0 : ℚ) < (bars : ℚ) := by exact_mod_cast hb
    exact mul_pos h1 h2
  have hpl : framePos idx rate sr stride bars < (N : ℚ) / ((stride : ℚ) * (bars : ℚ)) := by
    unfold framePos
    rw [div_div]
    exact (div_lt_div_iff_of_pos_right hsbpos).mpr key
  have hfl : ((frameOff idx rate sr stride bars : ℤ) : ℚ) ≤ framePos idx rate sr stride bars := by
    rw [hoff]
    exact Int.floor_le _
  have h4 : ((frameOff idx rate sr stride bars : ℤ) : ℚ) * ((stride : ℚ) * (bars : ℚ)) < (N : ℚ) :=
    (lt_div_iff₀ hsbpos).mp (lt_of_le_of_lt hfl hpl)
  have hcast : (((frameOff idx rate sr stride bars).toNat : ℕ) : ℚ) =
      ((frameOff idx rate sr stride bars : ℤ) : ℚ) := by
    rw [← Int.cast_natCast]
    congr 1
    exact Int.toNat_of_nonneg hoffnn
  set o : ℕ := (frameOff idx rate sr stride bars).toNat with ho
  have h5 : o * (stride * bars) < N := by
    have h4' : ((o : ℕ) : ℚ) * ((stride : ℚ) * (bars : ℚ)) < (N : ℚ) := by
      rw [hcast]
      exact h4
    exact_mod_cast h4'
  have e1 : o * (stride * bars) = o * bars * stride := by ring
  rw [e1] at h5
  have h6 : o * bars * stride ≤ N + stride - 1 := by
    set m := o * bars * stride with hm
    omega
  have h7 : o * bars ≤ (N + stride - 1) / stride := (Nat.le_div_iff_mul_le hs).mpr h6
  rw [paddedEnv_length, envelope_length_aux _ _ _ hs, ← hNdef]
  have e2 : (o + 2) * bars = o * bars + 2 * bars := by ring
  set p := o * bars with hp
  set q := (N + stride - 1) / stride with hq
  omega

/-- C1 witness: a 4-sample signal at sample rate 2, frame rate 1 (2 frames);
frame index 1 keeps both envelope slices inside the padded envelope. -/
theorem frames_index_within_padded_env_wit :
    (1 : ℤ) < framesCount 1 4 2 ∧ (0 : ℚ) < 2 ∧
      (0 ≤ frameOff 1 1 2 1 1 ∧
        ((frameOff 1 1 2 1 1).toNat + 2) * 1 ≤
          (paddedEnv (envelope [(0 : ℝ), 0, 0, 0] 1 1) 1).length) := by
  have hidx : (1 : ℤ) < framesCount 1 4 2 := by
    rw [framesCount, goIntQ]
    norm_num
  exact ⟨hidx, by norm_num,
    frames_index_within_padded_env [(0 : ℝ), 0, 0, 0] 1 1 1 1 1 2
      (by norm_num) (by norm_num) (by norm_num) (by norm_num) hidx⟩

/-- Helper: the sigmoid is strictly positive. -/
theorem sigmoid_pos (x : ℝ) : 0 < sigmoid x := by
  unfold sigmoid
  have h := Real.exp_pos (-x)
  positivity

/-- Helper: the sigmoid is strictly below one. -/
theorem sigmoid_lt_one (x : ℝ) : sigmoid x < 1 := by
  unfold sigmoid
  have h := Real.exp_pos (-x)
  rw [div_lt_one (by linarith)]
  linarith

/-- Helper: the sigmoid of a nonnegative argument is at least one half. -/
theorem sigmoid_half_le (x : ℝ) (hx : 0 ≤ x) : 1 / 2 ≤ sigmoid x := by
  unfold sigmoid
  have h1 : Real.exp (-x) ≤ 1 := Real.exp_le_one_iff.mpr (by linarith)
  have h2 := Real.exp_pos (-x)
  exact one_div_le_one_div_of_le (by linarith) (by linarith)

/-- Helper: the compression keeps every value strictly inside `(-0.95, 0.95)`. -/
theorem compressVal_mem_ival (v : ℝ) : -0.95 < compressVal v ∧ compressVal v < 0.95 := by
  unfold compressVal
  have h1 := sigmoid_pos (2.5 * v)
  have h2 := sigmoid_lt_one (2.5 * v)
  constructor <;> nlinarith

/-- Helper: the compression of a nonnegative value is nonnegative. -/
theorem compressVal_nonneg (v : ℝ) (hv : 0 ≤ v) : 0 ≤ compressVal v := by
  unfold compressVal
  have h1 := sigmoid_half_le (2.5 * v) (by linarith)
  nlinarith

/-- C6 (confirmed): every value produced by the envelope extractor, before
padding, lies strictly within `(-0.95, 0.95)`: the compression at
src/main.go:230 maps every rectified window average into this open interval. -/
theorem envelope_values_in_range (wav : List ℝ) (window stride : ℕ) (x : ℝ)
    (hx : x ∈ envelope wav window stride) : -0.95 < x ∧ x < 0.95 := by
  unfold envelope at hx
  rw [List.mem_map] at hx
  obtain ⟨v, -, rfl⟩ := hx
  exact compressVal_mem_ival v

/-- Helper: the envelope of the one-sample signal `[1]` with unit window and
stride is the single compressed frame average. -/
theorem envelope_single_eval :
    envelope [(1 : ℝ)] 1 1 = [compressVal (frameAvg [(1 : ℝ)])] := by
  have hof : offsets 1 1 0 = [0] := by
    rw [offsets, dif_pos (by omega), offsets, dif_neg (by omega)]
  unfold envelope paddedSig
  norm_num [hof]

/-- C6 witness: the single envelope value of the signal `[1]` lies in the open
interval `(-0.95, 0.95)`. -/
theorem envelope_values_in_range_wit :
    compressVal (frameAvg [(1 : ℝ)]) ∈ envelope [(1 : ℝ)] 1 1 ∧
      (-0.95 < compressVal (frameAvg [(1 : ℝ)]) ∧ compressVal (frameAvg [(1 : ℝ)]) < 0.95) := by
  have hm : compressVal (frameAvg [(1 : ℝ)]) ∈ envelope [(1 : ℝ)] 1 1 := by
    rw [envelope_single_eval]
    exact List.mem_singleton.mpr rfl
  exact ⟨hm, envelope_values_in_range [(1 : ℝ)] 1 1 _ hm⟩

/-- C5 (code bug): on an all-zero (silent) mono signal the normalization at
src/main.go:348-356 computes `std = sqrt(0) = 0` and then executes
`mono[i] /= std` for every sample with no special case, a `0/0` division whose
float result is NaN: every normalized sample is non-finite. -/
theorem normalizeGo_silent_nan : normalizeGo [(0 : ℝ), 0] = [none, none] := by
  unfold normalizeGo fdivF
  norm_num

/-- C7 (code bug): with `bars = 1` the taper at src/main.go:401 divides by
`float64(len(denv)-1) = 0` with no special case; the division and the
subsequent `cos` produce NaN, so the single bar value is not well-defined. -/
theorem taperGo_bars_one_nan : taperGo 0 1 = none := by
  unfold taperGo fdivF
  norm_num

/-- Helper: `getD` with default 0 of a list of nonnegative reals is
nonnegative. -/
theorem getD_nonneg_of (l : List ℝ) (i : ℕ) (h : ∀ x ∈ l, 0 ≤ x) : 0 ≤ l.getD i 0 := by
  rw [List.getD_eq_getD_get?]
  cases hg : l.get? i with
  | none => simp
  | some a =>
    simp only [Option.getD_some]
    exact h a (List.get?_mem hg)

/-- Helper: the rectified window average is nonnegative. -/
theorem frameAvg_nonneg (frame : List ℝ) : 0 ≤ frameAvg frame := by
  unfold frameAvg
  split
  · apply div_nonneg
    · apply List.sum_nonneg
      intro x hx
      unfold posSamples at hx
      rw [List.mem_filter] at hx
      have hx2 := of_decide_eq_true hx.2
      linarith
    · positivity
  · exact le_refl 0

/-- Helper: every envelope value is nonnegative (rectified averages are
nonnegative and the compression preserves nonnegativity). -/
theorem envelope_mem_nonneg (wav : List ℝ) (window stride : ℕ) (x : ℝ)
    (hx : x ∈ envelope wav window stride) : 0 ≤ x := by
  unfold envelope at hx
  rw [List.mem_map] at hx
  obtain ⟨v, hv, rfl⟩ := hx
  rw [List.mem_map] at hv
  obtain ⟨off, -, rfl⟩ := hv
  exact compressVal_nonneg _ (frameAvg_nonneg _)

/-- Helper: padding preserves nonnegativity of the envelope entries. -/
theorem paddedEnv_mem_nonneg (env : List ℝ) (bars : ℕ) (h : ∀ x ∈ env, 0 ≤ x)
    (x : ℝ) (hx : x ∈ paddedEnv env bars) : 0 ≤ x := by
  unfold paddedEnv at hx
  rcases List.mem_append.mp hx with hx1 | hx2
  · rcases List.mem_append.mp hx1 with hx3 | hx4
    · rw [List.eq_of_mem_replicate hx3]
    · exact h x hx4
  · rw [List.eq_of_mem_replicate hx2]

/-- Helper: a crossfade blend of nonnegative values with a weight in `[0,1]`,
times a nonnegative taper, is nonnegative. -/
theorem blend_taper_nonneg (w a b t : ℝ) (hw0 : 0 ≤ w) (hw1 : w ≤ 1)
    (ha : 0 ≤ a) (hb : 0 ≤ b) (ht : 0 ≤ t) : 0 ≤ ((1 - w) * a + w * b) * t :=
  mul_nonneg (add_nonneg (mul_nonneg (by linarith) ha) (mul_nonneg hw0 hb)) ht

/-- Helper: every entry of a bar vector built from a nonnegative envelope is
nonnegative. -/
theorem barVector_mem_nonneg (env : List ℝ) (idx rate stride bars : ℕ) (sr speed : ℝ)
    (henv : ∀ v ∈ env, 0 ≤ v) (x : ℝ)
    (hx : x ∈ barVector env idx rate sr stride bars speed) : 0 ≤ x := by
  simp only [barVector, List.mem_map, List.mem_range] at hx
  obtain ⟨i, hi, rfl⟩ := hx
  apply blend_taper_nonneg
  · exact le_of_lt (sigmoid_pos _)
  · exact le_of_lt (sigmoid_lt_one _)
  · exact getD_nonneg_of _ _ (fun v hv => henv v (List.drop_subset _ _ (List.take_subset _ _ hv)))
  · exact getD_nonneg_of _ _ (fun v hv => henv v (List.drop_subset _ _ (List.take_subset _ _ hv)))
  · have hc := Real.cos_le_one (2 * Real.pi * (i : ℝ) / ((bars : ℝ) - 1))
    linarith

/-- C9 counterexample (negation of the claim): no reachable combination of
envelope and frame index produces a negative bar value: every value the
interpolation loop at src/main.go:398-402 hands to the renderer is
nonnegative. -/
theorem barVector_no_negative_values :
    ¬ ∃ (wav : List ℝ) (window stride bars rate idx : ℕ) (sr speed : ℝ) (x : ℝ),
        x ∈ barVector (paddedEnv (envelope wav window stride) bars) idx rate sr stride bars speed ∧
          x < 0 := by
  rintro ⟨wav, window, stride, bars, rate, idx, sr, speed, x, hx, hneg⟩
  have h0 : 0 ≤ x :=
    barVector_mem_nonneg _ _ _ _ _ _ _
      (paddedEnv_mem_nonneg _ _ (envelope_mem_nonneg wav window stride)) x hx
  linarith

/-- C9 (amended): every bar value passed to the renderer is nonnegative: the
envelope values are nonnegative, the crossfade weight lies in `(0,1)`, and the
raised-cosine taper lies in `[0,1]`, so the blended-and-tapered bar heights are
never negative. -/
theorem barVector_entries_nonneg (wav : List ℝ) (window stride bars rate idx i : ℕ)
    (sr speed : ℝ) :
    0 ≤ (barVector (paddedEnv (envelope wav window stride) bars)
        idx rate sr stride bars speed).getD i 0 :=
  getD_nonneg_of _ i (fun x hx =>
    barVector_mem_nonneg _ _ _ _ _ _ _
      (paddedEnv_mem_nonneg _ _ (envelope_mem_nonneg wav window stride)) x hx)

/-- Helper: four in-range bytes decode to a present 32-bit word. -/
theorem u32le_isSome (raw : List ℕ) (offset : ℕ) (h : offset + 3 < raw.length) :
    (u32le raw offset).isSome := by
  unfold u32le
  rw [List.get?_eq_get (by omega), List.get?_eq_get (by omega), List.get?_eq_get (by omega),
    List.get?_eq_get (by omega)]
  rfl

/-- C10 (confirmed): whatever the raw byte count, `readAudio`
(src/main.go:185-198) decodes without failing: it produces `channels` channel
sequences, each holding exactly `len(raw)/4/channels = ⌊len(raw)/(4·channels)⌋`
samples, every byte access in range; trailing incomplete bytes are ignored. -/
theorem readAudio_decodes_floor_samples (raw : List ℕ) (channels c i : ℕ)
    (hc : 0 < channels) (hcc : c < channels) (hi : i < raw.length / (4 * channels)) :
    (readAudioSamples raw channels).length = channels ∧
      ((readAudioSamples raw channels).getD c []).length = raw.length / (4 * channels) ∧
      (((readAudioSamples raw channels).getD c []).getD i none).isSome := by
  have hdd : raw.length / 4 / channels = raw.length / (4 * channels) :=
    Nat.div_div_eq_div_mul _ _ _
  have hrow : (readAudioSamples raw channels).getD c [] =
      (List.range (raw.length / 4 / channels)).map
        (fun j => u32le raw (4 * (j * channels + c))) := by
    unfold readAudioSamples
    rw [List.getD_eq_getElem _ _ (by simpa using hcc)]
    simp
  refine ⟨by simp [readAudioSamples], ?_, ?_⟩
  · rw [hrow]
    simp [hdd]
  · rw [hrow]
    rw [List.getD_eq_getElem _ _ (by simpa [hdd] using hi)]
    simp only [List.getElem_map, List.getElem_range]
    apply u32le_isSome
    set S := raw.length / (4 * channels) with hS
    have hsamples : S * (4 * channels) ≤ raw.length := Nat.div_mul_le_self _ _
    have hstep : (i + 1) * channels ≤ S * channels := Nat.mul_le_mul_right _ (by omega)
    have hsucc : (i + 1) * channels = i * channels + channels := by ring
    have hmul : S * (4 * channels) = 4 * (S * channels) := by ring
    set a := i * channels with ha
    set t := S * channels with ht
    omega

/-- C10 witness: a 9-byte raw buffer with 2 channels (one trailing byte) still
decodes: 2 channels of 1 sample each, all byte reads in range. -/
theorem readAudio_decodes_floor_samples_wit :
    0 < 2 ∧ 0 < (List.replicate 9 0).length / (4 * 2) ∧
      ((readAudioSamples (List.replicate 9 0) 2).length = 2 ∧
        ((readAudioSamples (List.replicate 9 0) 2).getD 0 []).length =
          (List.replicate 9 0).length / (4 * 2) ∧
        (((readAudioSamples (List.replicate 9 0) 2).getD 0 []).getD 0 none).isSome) :=
  ⟨by decide, by decide,
    readAudio_decodes_floor_samples (List.replicate 9 0) 2 0 0 (by decide) (by decide) (by decide)⟩

/-- Helper: `img.Set` never changes the image bounds. -/
theorem setPix_width (img : Image) (x y : ℤ) (c : RGBA) :
    (setPix img x y c).width = img.width := by
  unfold setPix
  split <;> rfl

theorem setPix_height (img : Image) (x y : ℤ) (c : RGBA) :
    (setPix img x y c).height = img.height := by
  unfold setPix
  split <;> rfl

theorem setPix_pix_ne (img : Image) (x0 y0 x y : ℤ) (c : RGBA) (h : x ≠ x0 ∨ y ≠ y0) :
    (setPix img x0 y0 c).pix x y = img.pix x y := by
  unfold setPix
  split
  · simp only
    rw [if_neg (by tauto)]
  · rfl

theorem setPix_pix_self (img : Image) (x y : ℤ) (c : RGBA)
    (hx1 : 0 ≤ x) (hx2 : x < (img.width : ℤ)) (hy1 : 0 ≤ y) (hy2 : y < (img.height : ℤ)) :
    (setPix img x y c).pix x y = c := by
  unfold setPix
  rw [if_pos ⟨hx1, hx2, hy1, hy2⟩]
  simp

theorem fillRow_width (img : Image) (cols : List ℤ) (y : ℤ) (c : RGBA) :
    (fillRow img cols y c).width = img.width := by
  induction cols generalizing img with
  | nil => rfl
  | cons x0 rest ih =>
    unfold fillRow at ih ⊢
    rw [List.foldl_cons, ih, setPix_width]

theorem fillRow_height (img : Image) (cols : List ℤ) (y : ℤ) (c : RGBA) :
    (fillRow img cols y c).height = img.height := by
  induction cols generalizing img with
  | nil => rfl
  | cons x0 rest ih =>
    unfold fillRow at ih ⊢
    rw [List.foldl_cons, ih, setPix_height]

theorem fillRow_pix_ne (img : Image) (cols : List ℤ) (y : ℤ) (c : RGBA) (x b : ℤ)
    (h : x ∉ cols ∨ b ≠ y) : (fillRow img cols y c).pix x b = img.pix x b := by
  induction cols generalizing img with
  | nil => rfl
  | cons x0 rest ih =>
    unfold fillRow at ih ⊢
    have h1 : x ∉ rest ∨ b ≠ y := by
      rcases h with h | h
      · exact Or.inl (fun hm => h (List.mem_cons_of_mem _ hm))
      · exact Or.inr h
    have h2 : x ≠ x0 ∨ b ≠ y := by
      rcases h with h | h
      · exact Or.inl (fun he => h (he ▸ List.mem_cons_self _ _))
      · exact Or.inr h
    rw [List.foldl_cons, ih _ h1, setPix_pix_ne _ _ _ _ _ _ h2]

theorem fillRow_pix_mem (img : Image) (cols : List ℤ) (y : ℤ) (c : RGBA) (x : ℤ)
    (hx : x ∈ cols) (hx1 : 0 ≤ x) (hx2 : x < (img.width : ℤ))
    (hy1 : 0 ≤ y) (hy2 : y < (img.height : ℤ)) :
    (fillRow img cols y c).pix x y = c := by
  induction cols generalizing img with
  | nil => exact absurd hx (List.not_mem_nil x)
  | cons x0 rest ih =>
    unfold fillRow at ih ⊢
    rw [List.foldl_cons]
    by_cases hmem : x ∈ rest
    · exact ih _ hmem (by rwa [setPix_width]) (by rwa [setPix_height])
    · have hx0 : x = x0 := by
        rcases List.mem_cons.mp hx with h | h
        · exact h
        · exact absurd h hmem
      subst hx0
      change (fillRow (setPix img x y c) rest y c).pix x y = c
      rw [fillRow_pix_ne _ _ _ _ _ _ (Or.inl hmem)]
      exact setPix_pix_self img x y c hx1 hx2 hy1 hy2

theorem fillRect_width (img : Image) (cols rows : List ℤ) (c : RGBA) :
    (fillRect img cols rows c).width = img.width := by
  induction rows generalizing img with
  | nil => rfl
  | cons y0 rest ih =>
    unfold fillRect at ih ⊢
    rw [List.foldl_cons, ih, fillRow_width]

theorem fillRect_height (img : Image) (cols rows : List ℤ) (c : RGBA) :
    (fillRect img cols rows c).height = img.height := by
  induction rows generalizing img with
  | nil => rfl
  | cons y0 rest ih =>
    unfold fillRect at ih ⊢
    rw [List.foldl_cons, ih, fillRow_height]

theorem fillRect_pix_ne (img : Image) (cols rows : List ℤ) (c : RGBA) (x y : ℤ)
    (h : x ∉ cols ∨ y ∉ rows) : (fillRect img cols rows c).pix x y = img.pix x y := by
  induction rows generalizing img with
  | nil => rfl
  | cons y0 rest ih =>
    unfold fillRect at ih ⊢
    have h1 : x ∉ cols ∨ y ∉ rest := by
      rcases h with h | h
      · exact Or.inl h
      · exact Or.inr (fun hm => h (List.mem_cons_of_mem _ hm))
    have h2 : x ∉ cols ∨ y ≠ y0 := by
      rcases h with h | h
      · exact Or.inl h
      · exact Or.inr (fun he => h (he ▸ List.mem_cons_self _ _))
    rw [List.foldl_cons, ih _ h1, fillRow_pix_ne _ _ _ _ _ _ h2]

theorem fillRect_pix_mem (img : Image) (cols rows : List ℤ) (c : RGBA) (x y : ℤ)
    (hx : x ∈ cols) (hy : y ∈ rows) (hx1 : 0 ≤ x) (hx2 : x < (img.width : ℤ))
    (hy1 : 0 ≤ y) (hy2 : y < (img.height : ℤ)) :
    (fillRect img cols rows c).pix x y = c := by
  induction rows generalizing img with
  | nil => exact absurd hy (List.not_mem_nil y)
  | cons y0 rest ih =>
    unfold fillRect at ih ⊢
    rw [List.foldl_cons]
    by_cases hmem : y ∈ rest
    · exact ih _ hmem (by rwa [fillRow_width]) (by rwa [fillRow_height])
    · have hy0 : y = y0 := by
        rcases List.mem_cons.mp hy with h | h
        · exact h
        · exact absurd h hmem
      subst hy0
      change (fillRect (fillRow img cols y c) cols rest c).pix x y = c
      rw [fillRect_pix_ne _ _ _ _ _ _ (Or.inr hmem)]
      exact fillRow_pix_mem img cols y c x hx hx1 hx2 hy1 hy2

/-- Helper: membership in the Go loop index range. -/
theorem mem_intRange (lo hi x : ℤ) : x ∈ intRange lo hi ↔ lo ≤ x ∧ x < hi := by
  unfold intRange
  rw [List.mem_map]
  constructor
  · rintro ⟨k, hk, rfl⟩
    rw [List.mem_range] at hk
    omega
  · intro h
    refine ⟨(x - lo).toNat, ?_, ?_⟩
    · rw [List.mem_range]
      omega
    · omega

theorem fillBg_width (w h : ℕ) (bg : RGBA) : (fillBg w h bg).width = w := by
  unfold fillBg
  rw [fillRect_width]
  rfl

theorem fillBg_height (w h : ℕ) (bg : RGBA) : (fillBg w h bg).height = h := by
  unfold fillBg
  rw [fillRect_height]
  rfl

/-- Helper: the background fill paints every in-bounds pixel with the
background color. -/
theorem fillBg_pix (w h : ℕ) (bg : RGBA) (x y : ℤ)
    (hx1 : 0 ≤ x) (hx2 : x < (w : ℤ)) (hy1 : 0 ≤ y) (hy2 : y < (h : ℤ)) :
    (fillBg w h bg).pix x y = bg := by
  unfold fillBg
  exact fillRect_pix_mem _ _ _ _ _ _ ((mem_intRange _ _ _).mpr ⟨hx1, hx2⟩)
    ((mem_intRange _ _ _).mpr ⟨hy1, hy2⟩) hx1 hx2 hy1 hy2

theorem drawBar_width (n w h : ℕ) (fg : RGBA) (img : Image) (i : ℕ) (e : ℚ) :
    (drawBar n w h fg img i e).width = img.width := by
  unfold drawBar
  rw [fillRect_width, fillRect_width]

theorem drawBar_height (n w h : ℕ) (fg : RGBA) (img : Image) (i : ℕ) (e : ℚ) :
    (drawBar n w h fg img i e).height = img.height := by
  unfold drawBar
  rw [fillRect_height, fillRect_height]

/-- Helper: drawing one bar leaves every pixel outside that bar's two
rectangles unchanged. -/
theorem drawBar_pix_ne (n w h : ℕ) (fg : RGBA) (img : Image) (i : ℕ) (e : ℚ) (x y : ℤ)
    (hne : ¬ (x ∈ barCols n w i ∧ (y ∈ upperRows h e ∨ y ∈ lowerRows h e))) :
    (drawBar n w h fg img i e).pix x y = img.pix x y := by
  unfold drawBar
  by_cases hc : x ∈ barCols n w i
  · have hy : ¬ (y ∈ upperRows h e ∨ y ∈ lowerRows h e) := fun hor => hne ⟨hc, hor⟩
    rw [fillRect_pix_ne _ _ _ _ _ _ (Or.inr (fun hyl => hy (Or.inr hyl))),
      fillRect_pix_ne _ _ _ _ _ _ (Or.inr (fun hyu => hy (Or.inl hyu)))]
  · rw [fillRect_pix_ne _ _ _ _ _ _ (Or.inl hc), fillRect_pix_ne _ _ _ _ _ _ (Or.inl hc)]

theorem drawFold_width (n w h : ℕ) (fg : RGBA) (l : List (ℕ × ℚ)) (img : Image) :
    (l.foldl (fun im p => drawBar n w h fg im p.1 p.2) img).width = img.width := by
  induction l generalizing img with
  | nil => rfl
  | cons p rest ih => rw [List.foldl_cons, ih, drawBar_width]

theorem drawFold_height (n w h : ℕ) (fg : RGBA) (l : List (ℕ × ℚ)) (img : Image) :
    (l.foldl (fun im p => drawBar n w h fg im p.1 p.2) img).height = img.height := by
  induction l generalizing img with
  | nil => rfl
  | cons p rest ih => rw [List.foldl_cons, ih, drawBar_height]

/-- Helper: the bar loop leaves every pixel outside all drawn bar rectangles
unchanged. -/
theorem drawFold_pix (n w h : ℕ) (fg : RGBA) (l : List (ℕ × ℚ)) (img : Image) (x y : ℤ)
    (hl : ∀ p ∈ l, ¬ (x ∈ barCols n w p.1 ∧ (y ∈ upperRows h p.2 ∨ y ∈ lowerRows h p.2))) :
    (l.foldl (fun im p => drawBar n w h fg im p.1 p.2) img).pix x y = img.pix x y := by
  induction l generalizing img with
  | nil => rfl
  | cons p rest ih =>
    rw [List.foldl_cons, ih _ (fun q hq => hl q (List.mem_cons_of_mem _ hq)),
      drawBar_pix_ne _ _ _ _ _ _ _ _ _ (hl p (List.mem_cons_self _ _))]

/-- C8 (confirmed): the rendered image of `drawEnv` (src/main.go:235-283) has
exactly the requested `width × height` bounds, and every in-bounds pixel not
covered by a drawn bar rectangle still holds the background color. -/
theorem drawEnv_background_frame (env : List ℚ) (fg bg : RGBA) (w h : ℕ) (x y : ℤ)
    (hx1 : 0 ≤ x) (hx2 : x < (w : ℤ)) (hy1 : 0 ≤ y) (hy2 : y < (h : ℤ))
    (hnc : ¬ covered env w h x y) :
    (drawEnv env fg bg w h).width = w ∧ (drawEnv env fg bg w h).height = h ∧
      (drawEnv env fg bg w h).pix x y = bg := by
  unfold drawEnv
  refine ⟨?_, ?_, ?_⟩
  · rw [drawFold_width]
    exact fillBg_width w h bg
  · rw [drawFold_height]
    exact fillBg_height w h bg
  · rw [drawFold_pix _ _ _ _ _ _ _ _ (fun p hp hcon => hnc ⟨p, hp, hcon⟩)]
    exact fillBg_pix w h bg x y hx1 hx2 hy1 hy2

/-- Helper: for the unit bar height on a 2-pixel-high canvas the upper
rectangle is empty (its row loop bound truncates to the midline). -/
theorem upperRows_unit_eval : upperRows 2 1 = [] := by
  unfold upperRows goIntQ intRange
  norm_num

/-- Helper: for the unit bar height on a 2-pixel-high canvas the lower
rectangle is empty. -/
theorem lowerRows_unit_eval : lowerRows 2 1 = [] := by
  unfold lowerRows goIntQ intRange
  norm_num

/-- C8 witness: a single bar of height 1 on a 2×2 canvas; the pixel (0,0) is
outside every drawn rectangle, and the rendered image keeps the requested
bounds with the background color there. -/
theorem drawEnv_background_frame_wit :
    ¬ covered [(1 : ℚ)] 2 2 0 0 ∧
      ((drawEnv [(1 : ℚ)] ⟨0, 125, 156, 255⟩ ⟨0, 0, 0, 255⟩ 2 2).width = 2 ∧
        (drawEnv [(1 : ℚ)] ⟨0, 125, 156, 255⟩ ⟨0, 0, 0, 255⟩ 2 2).height = 2 ∧
        (drawEnv [(1 : ℚ)] ⟨0, 125, 156, 255⟩ ⟨0, 0, 0, 255⟩ 2 2).pix 0 0 = ⟨0, 0, 0, 255⟩) := by
  have hnc : ¬ covered [(1 : ℚ)] 2 2 0 0 := by
    intro hcov
    unfold covered at hcov
    obtain ⟨p, hp, hcon⟩ := hcov
    have henum : List.enum [(1 : ℚ)] = [(0, 1)] := rfl
    rw [henum] at hp
    have hp2 : p = ((0 : ℕ), (1 : ℚ)) := by simpa using hp
    subst hp2
    have hy : (0 : ℤ) ∈ upperRows 2 1 ∨ (0 : ℤ) ∈ lowerRows 2 1 := hcon.2
    rcases hy with hy | hy
    · rw [upperRows_unit_eval] at hy
      exact absurd hy (List.not_mem_nil _)
    · rw [lowerRows_unit_eval] at hy
      exact absurd hy (List.not_mem_nil _)
  exact ⟨hnc, drawEnv_background_frame [(1 : ℚ)] ⟨0, 125, 156, 255⟩ ⟨0, 0, 0, 255⟩ 2 2 0 0
    (by decide) (by decide) (by decide) (by decide) hnc⟩
